import Mathlib

/-!
Verification of the clip-segmentation / video-extraction pipeline in
`pretrain_other_way.py` (gameskill data processing).

Python floats are modelled as exact rationals (`ℚ`); `round(x, 1)` and the
`:.2f` format are modelled as round-half-to-even on rationals, matching
Python's decimal rounding behaviour.  Subprocess and filesystem effects of
the Transcode Executor are modelled by an explicit environment record that
records the outcome of each external step; the per-clip worker's exception
boundary is modelled by a fault oracle, and the worker pool's order-preserving
result collection (`multiprocessing.Pool.imap`) is modelled by index-keyed
reassembly of completions arriving in an arbitrary schedule.
-/

namespace GSP

/-- A timed word `[start, end, token]` as produced by `split2words`. -/
structure Word where
  ws : ℚ
  we : ℚ
  tok : String
deriving DecidableEq, Repr

instance : Inhabited Word := ⟨⟨0, 0, ""⟩⟩

/-- Round-half-to-even to the nearest integer (Python's `round` on exact values). -/
def rnearestEven (q : ℚ) : ℤ :=
  let f := ⌊q⌋
  let r := q - f
  if r < 1/2 then f
  else if 1/2 < r then f + 1
  else if f % 2 = 0 then f else f + 1

/-- Python `round(q, 1)`: round to one decimal place, ties to even. -/
def round1 (q : ℚ) : ℚ := (rnearestEven (q * 10) : ℚ) / 10

/-- Helper for `pySplitSpace`: accumulate the current token (reversed) while
splitting on single spaces, keeping empty pieces, as Python `str.split(' ')` does. -/
def splitSpaceAux : List Char → List Char → List (List Char)
  | [], acc => [acc.reverse]
  | c :: rest, acc =>
    if c = ' ' then acc.reverse :: splitSpaceAux rest []
    else splitSpaceAux rest (c :: acc)

/-- Python `s.split(' ')`: split on each single space character, keeping
empty strings (so `' '.split(' ') = ['', '']` and `''.split(' ') = ['']`). -/
def pySplitSpace (s : String) : List String :=
  (splitSpaceAux s.toList []).map (fun cs => String.mk cs)

/-- The dedup loop of `split2words`: a token is appended only when it differs
from the last appended token, i.e. immediately-repeated tokens collapse. -/
def collapseAdj : List String → List String
  | [] => []
  | [w] => [w]
  | w :: v :: rest => if w = v then collapseAdj (v :: rest) else w :: collapseAdj (v :: rest)

/-- `'[' in subtitle or ']' in subtitle` from `split2words`. -/
def hasBracket (s : String) : Bool := s.toList.contains '[' || s.toList.contains ']'

/-- The per-interval body of `split2words`: drop bracketed subtitles, split the
text on spaces, collapse adjacent duplicates, and spread the interval's
duration evenly over the surviving tokens, rounding boundaries to one decimal. -/
def intervalWords (s e : ℚ) (text : String) : List Word :=
  if hasBracket text then []
  else
    let toks := collapseAdj (pySplitSpace text)
    if 0 < toks.length then
      let d := (e - s) / (toks.length : ℚ)
      toks.enum.map (fun p =>
        ⟨round1 (s + (p.1 : ℚ) * d), round1 (s + ((p.1 : ℚ) + 1) * d), p.2⟩)
    else []

/-- `split2words`: concatenate the words contributed by each subtitle interval. -/
def split2words (subs : List (ℚ × ℚ × String)) : List Word :=
  subs.flatMap (fun x => intervalWords x.1 x.2.1 x.2.2)

/-- End time of the `k`-th word (`words[k][1]` in the Python source). -/
def wEnd (words : List Word) (k : Nat) : ℚ := (words.getD k default).we

/-- Start time of the `k`-th word (`words[k][0]`). -/
def wStart (words : List Word) (k : Nat) : ℚ := (words.getD k default).ws

/-- The two break conditions of the inner scan of `clip4pretrain`, checked in
source order: the span bound `words[j][1] - words[i][1] > max_clip_sec`, then
the gap bound `words[j][1] - words[j-1][1] > max_empty_sec`. -/
def violates (words : List Word) (mc mg : ℚ) (i k : Nat) : Bool :=
  if mc < wEnd words k - wEnd words i then true
  else if mg < wEnd words k - wEnd words (k - 1) then true
  else false

/-- The inner `for j in range(i+1, len(words))` scan of `clip4pretrain`,
already positioned at index `j`: return the first index `≥ j` that violates a
bound, or the final index of the sequence if none does (Python's loop variable
keeps its last value when the loop ends without `break`). -/
def stopGo (words : List Word) (mc mg : ℚ) (i : Nat) (j : Nat) : Nat :=
  if violates words mc mg i j then j
  else if _h : j + 1 < words.length then stopGo words mc mg i (j + 1)
  else j
termination_by words.length - j
decreasing_by omega

/-- The scan's cursor never moves backwards. -/
theorem stopGo_ge (words : List Word) (mc mg : ℚ) (i j : Nat) :
    j ≤ stopGo words mc mg i j := by
  rw [stopGo]
  split
  · exact le_refl j
  · split
    · exact le_trans (by omega) (stopGo_ge words mc mg i (j + 1))
    · exact le_refl j
termination_by words.length - j
decreasing_by omega

/-- The scan never leaves the sequence. -/
theorem stopGo_lt (words : List Word) (mc mg : ℚ) (i j : Nat) (hj : j < words.length) :
    stopGo words mc mg i j < words.length := by
  rw [stopGo]
  split
  · exact hj
  · split
    · exact stopGo_lt words mc mg i (j + 1) (by omega)
    · exact hj
termination_by words.length - j
decreasing_by omega

/-- Value of the Python loop variable `j` after the inner scan from cursor `i`:
`none` iff `range(i+1, len(words))` is empty (then `j` stays `None`). -/
def stopIdx (words : List Word) (mc mg : ℚ) (i : Nat) : Option Nat :=
  if i + 1 < words.length then some (stopGo words mc mg i (i + 1)) else none

/-- The outer `while i < len(words)` loop of `clip4pretrain`, producing the
half-open index spans `(i, j)` of the emitted clips (`words[i:j]`): when the
scan range is non-empty it yields a stop index `j`, the span is emitted iff
`j > i` and `words[j-1][1] - words[i][1] >= min_clip_sec`, and the cursor
advances to `j`; otherwise `j` is `None` and the loop breaks. -/
def clipSpansAux (words : List Word) (mc mg mn : ℚ) (i : Nat) : List (Nat × Nat) :=
  if _h : i + 1 < words.length then
    let j := stopGo words mc mg i (i + 1)
    if i < j ∧ mn ≤ wEnd words (j - 1) - wEnd words i then
      (i, j) :: clipSpansAux words mc mg mn j
    else clipSpansAux words mc mg mn j
  else []
termination_by words.length - i
decreasing_by
  all_goals
    have := stopGo_ge words mc mg i (i + 1)
    omega

/-- Index spans of the clips produced by `clip4pretrain` on a word list. -/
def clipSpans (words : List Word) (mc mg mn : ℚ) : List (Nat × Nat) :=
  clipSpansAux words mc mg mn 0

/-- Number of iterations the `while` loop of `clip4pretrain` performs from
cursor `i` (the final iteration is the one that either breaks on `j = None`
or advances the cursor past the end). -/
def clipIters (words : List Word) (mc mg : ℚ) (i : Nat) : Nat :=
  if i < words.length then
    if _h : i + 1 < words.length then
      1 + clipIters words mc mg (stopGo words mc mg i (i + 1))
    else 1
  else 0
termination_by words.length - i
decreasing_by
  have := stopGo_ge words mc mg i (i + 1)
  omega

/-- One parsed input record (after `split2words` installed `content`). -/
structure VideoDatum where
  video : String
  title : String
  category : String
  content : List Word
deriving DecidableEq, Repr

instance : Inhabited VideoDatum := ⟨⟨"", "", "", []⟩⟩

/-- The configuration values of `get_args` used by the segmenter and filter. -/
structure ClipArgs where
  min_clip_sec : ℚ
  max_clip_sec : ℚ
  max_empty_sec : ℚ
  min_wps : ℚ
  max_wps : ℚ
deriving DecidableEq, Repr

instance : Inhabited ClipArgs := ⟨⟨5, 15, 2, 1, 4⟩⟩

/-- One clip record as returned by `clip4pretrain`. -/
structure ClipRec where
  video : String
  content : List Word
  previous : String
  title : String
  category : String
  start_time : ℚ
  end_time : ℚ
deriving DecidableEq, Repr

instance : Inhabited ClipRec := ⟨⟨"", [], "", "", "", 0, 0⟩⟩

/-- `' '.join(...)` on a token list. -/
def spaceJoin : List String → String
  | [] => ""
  | [w] => w
  | w :: rest => w ++ " " ++ spaceJoin rest

/-- The Python slice `words[i:j]`. -/
def sliceWords (words : List Word) (i j : Nat) : List Word :=
  (words.drop i).take (j - i)

/-- Build the output dict of `clip4pretrain` for one span: the clip is
`words[i:j]`, `previous` joins the tokens strictly before `i`, and
`start_time` / `end_time` are `clip[0][0]` / `clip[-1][1]`. -/
def mkClipRec (d : VideoDatum) (p : Nat × Nat) : ClipRec :=
  let clip := sliceWords d.content p.1 p.2
  { video := d.video
    content := clip
    previous := spaceJoin ((d.content.take p.1).map (fun w => w.tok))
    title := d.title
    category := d.category
    start_time := clip.headI.ws
    end_time := (clip.getLastD default).we }

/-- `clip4pretrain`: the greedy forward segmentation of one video's words. -/
def clip4pretrain (d : VideoDatum) (a : ClipArgs) : List ClipRec :=
  (clipSpans d.content a.max_clip_sec a.max_empty_sec a.min_clip_sec).map (mkClipRec d)

/-- The density filter `check`: reject empty spans, non-positive end-to-end
duration, and words-per-second outside `[min_wps, max_wps]`. -/
def check (subtitles : List Word) (min_wps max_wps : ℚ) : Bool :=
  if subtitles.length = 0 then false
  else
    let duration := (subtitles.getLastD default).we - subtitles.headI.we
    if duration ≤ 0 then false
    else
      let wps := (subtitles.length : ℚ) / duration
      if wps < min_wps ∨ max_wps < wps then false else true

/-! ## Transcode Executor (`cut_video` / `verify_video_file`)

One `subprocess.run` invocation either returns normally with an exit code
(and, for `ffprobe`, whether `codec_name` appears on stdout), or raises
`TimeoutExpired`, or raises some other exception. -/

/-- Outcome of one external-tool invocation. -/
inductive RunOutcome where
  | ok (returncode : ℤ) (hasCodecName : Bool)
  | timeout
  | exn
deriving DecidableEq, Repr

/-- What the filesystem reports about one output path (`os.path.exists`,
`os.path.getsize`). -/
structure FileState where
  pathExists : Bool
  size : Nat
deriving DecidableEq, Repr

/-- Environment of one `cut_video` call: availability of the tools, the result
of the copy-mode and re-encode `ffmpeg` runs, and the state of the output file
(plus the `ffprobe` outcome) observed at each of the two verification points. -/
structure CutEnv where
  ffmpegAvailable : Bool
  ffprobeAvailable : Bool
  copyRun : RunOutcome
  fileAfterCopy : FileState
  probeAfterCopy : RunOutcome
  encodeRun : RunOutcome
  fileAfterEncode : FileState
  probeAfterEncode : RunOutcome
deriving DecidableEq, Repr

/-- The probe run returned exit code 0 and printed a `codec_name` line. -/
def probeConfirms : RunOutcome → Bool
  | .ok rc codec => decide (rc = 0) && codec
  | _ => false

/-- The probe attempt raised (timeout or other exception) instead of returning. -/
def probeRaised : RunOutcome → Bool
  | .ok _ _ => false
  | _ => true

/-- `verify_video_file`: the file must exist and be non-empty; with `ffprobe`
available its successful probe decides validity, but if the probe attempt
raises, the bare `except: pass` falls through to the same `> 1KB` size
heuristic that is used when `ffprobe` is unavailable. -/
def verify_video_file (fs : FileState) (probeAvail : Bool) (probe : RunOutcome) : Bool :=
  if !fs.pathExists then false
  else if fs.size = 0 then false
  else if probeAvail then
    match probe with
    | .ok rc codec => decide (rc = 0) && codec
    | _ => decide (1024 < fs.size)
  else decide (1024 < fs.size)

/-- The re-encode fallback of `cut_video`: a timeout or exception in the
`ffmpeg` run is caught and reported as `False`; a non-zero exit code is
`False`; otherwise the verdict is the output file's verification. -/
def runEncodePath (env : CutEnv) : Bool :=
  match env.encodeRun with
  | .ok rc _ =>
    if rc ≠ 0 then false
    else verify_video_file env.fileAfterEncode env.ffprobeAvailable env.probeAfterEncode
  | _ => false

/-- `cut_video`: no `ffmpeg` means `False`; with `try_copy` the stream-copy
attempt runs first (its own timeout/exception aborts the whole call with
`False` via the outer handlers), and only a zero exit code plus a verified
file short-circuits to `True`; otherwise the re-encode fallback decides. -/
def cut_video (env : CutEnv) (try_copy : Bool) : Bool :=
  if !env.ffmpegAvailable then false
  else if try_copy then
    match env.copyRun with
    | .ok rc _ =>
      if decide (rc = 0) && verify_video_file env.fileAfterCopy env.ffprobeAvailable env.probeAfterCopy then
        true
      else runEncodePath env
    | _ => false
  else runEncodePath env

/-! ## Pipeline Orchestrator (`process_single_clip` and the `__main__` loop) -/

/-- The conversation turns of the live-cc record. -/
structure Conversation where
  role : String
  value : String
deriving DecidableEq, Repr

/-- The `metadata` dict of `convert_to_live_cc_format`. -/
structure Metadata where
  title : String
  category : String
  video_start : ℚ
  video_end : ℚ
  duration : ℚ
  source_file : String
deriving DecidableEq, Repr

/-- One line of the output jsonl (`live_cc_data`). -/
structure LiveCCData where
  video : String
  data_path : String
  conversations : List Conversation
  metadata : Metadata
deriving DecidableEq, Repr

/-- The orchestration-relevant configuration values of `get_args`. -/
structure OrchArgs where
  skip_video_cut : Bool
  video_dir : String
  output_video_dir : String
  data_path : String
deriving DecidableEq, Repr

instance : Inhabited OrchArgs := ⟨⟨true, "", "", ""⟩⟩

/-- Python `f"{q:.2f}"` on an exact value: two decimals, ties to even. -/
def fmtFixed2 (q : ℚ) : String :=
  let m : ℤ := rnearestEven (q * 100)
  let sgn := if m < 0 then "-" else ""
  let a := m.natAbs
  sgn ++ toString (a / 100) ++ "." ++ (if a % 100 < 10 then "0" else "") ++ toString (a % 100)

/-- `generate_video_filename`: `{video_id}_{start:.2f}-{end:.2f}_2.0fps.mp4`. -/
def generate_video_filename (video_id : String) (start_time end_time : ℚ) : String :=
  video_id ++ "_" ++ fmtFixed2 start_time ++ "-" ++ fmtFixed2 end_time ++ "_2.0fps.mp4"

/-- Python `s[-500:]` for strings. -/
def lastChars (s : String) (n : Nat) : String :=
  String.mk (s.toList.drop (s.toList.length - n))

/-- Leading-match test used by `containsSub`. -/
def leadMatch : List Char → List Char → Bool
  | [], _ => true
  | _ :: _, [] => false
  | a :: as, b :: bs => a = b && leadMatch as bs

/-- Python `needle in hay` on strings: contiguous substring containment. -/
def containsSub (needle : List Char) : List Char → Bool
  | [] => needle.isEmpty
  | c :: rest => leadMatch needle (c :: rest) || containsSub needle rest

/-- `convert_to_live_cc_format`: build the formatted training record for one
clip, returning `(live_cc_data, video_filename, start_time, end_time)`. -/
def convert_to_live_cc_format (c : ClipRec) (a : OrchArgs) : LiveCCData × String × ℚ × ℚ :=
  let commentary := spaceJoin (c.content.map (fun w => w.tok))
  let video_filename := generate_video_filename c.video c.start_time c.end_time
  let video_path := a.output_video_dir ++ "/" ++ video_filename
  let previous_text := if c.previous = "" then "..." else c.previous
  let previous_text :=
    if 500 < previous_text.toList.length then "..." ++ lastChars previous_text 500
    else previous_text
  let instruction :=
    if (containsSub "cs2".toList c.category.toLower.toList
        || containsSub "game".toList c.category.toLower.toList) then
      "请观看这个游戏视频片段，并给出专业的游戏解说和分析，包括战术策略、操作技巧和关键决策。"
    else
      "请观看视频并给出解说: Provide a commentary on a mechanical repair process, highlighting specific measurements and steps involved."
  let human_value :=
    "<video>\n视频标题: " ++ c.title ++ "\n类别: " ++ c.category
      ++ (if previous_text ≠ "" ∧ previous_text ≠ "..." then
            "\n之前的解说内容: " ++ previous_text
          else "")
      ++ "\n请观看视频并给出解说: " ++ instruction
  let metadata : Metadata :=
    { title := c.title
      category := c.category
      video_start := c.start_time
      video_end := c.end_time
      duration := c.end_time - c.start_time
      source_file := c.video ++ ".json" }
  (⟨video_path, a.data_path,
     [⟨"human", human_value⟩, ⟨"gpt", commentary⟩], metadata⟩,
   video_filename, c.start_time, c.end_time)

/-- One unit of work handed to a pool worker, together with the environment
the worker will encounter: `fault` is `some msg` iff the body of
`process_single_clip`'s `try` raises an exception with message `msg`;
`inputExists` is `os.path.exists` on the source video; `cutEnv` drives the
`cut_video` call. -/
structure ClipTask where
  clip : ClipRec
  args : OrchArgs
  fault : Option String
  inputExists : Bool
  cutEnv : CutEnv
  try_copy : Bool
deriving DecidableEq, Repr

instance : Inhabited ClipTask :=
  ⟨⟨default, default, none, false, ⟨false, false, .exn, ⟨false, 0⟩, .exn, .exn, ⟨false, 0⟩, .exn⟩, true⟩⟩

/-- The per-clip result dict built by `process_single_clip`. -/
structure Outcome where
  success : Bool
  live_cc_data : Option LiveCCData
  video_cut_success : Bool
  video_id : String
  error : Option String
deriving DecidableEq, Repr

/-- `process_single_clip`: convert the clip, cut the video unless skipped or
the source is missing, and convert any raised exception into a failed outcome
instead of propagating it. -/
def process_single_clip (t : ClipTask) : Outcome :=
  match t.fault with
  | some msg =>
    { success := false, live_cc_data := none, video_cut_success := false
      video_id := t.clip.video, error := some msg }
  | none =>
    let conv := convert_to_live_cc_format t.clip t.args
    let video_cut_success :=
      if t.args.skip_video_cut then false
      else if t.inputExists then cut_video t.cutEnv t.try_copy
      else false
    { success := true, live_cc_data := some conv.1, video_cut_success := video_cut_success
      video_id := t.clip.video, error := none }

/-- Running counters of the `__main__` aggregation loop, plus the records
written to the output file, in order. -/
structure AggState where
  written : List LiveCCData
  total_clips : Nat
  video_cut_success : Nat
  video_cut_failed : Nat
  processed_videos : List String
deriving DecidableEq, Repr

/-- One iteration of the result-aggregation loop: successful outcomes with a
record append it to the output and bump `total_clips`, then count the cut as
success (remembering the video id if non-empty) or failure; failed outcomes
only bump the failure counter. -/
def aggStep (st : AggState) (r : Outcome) : AggState :=
  if r.success then
    match r.live_cc_data with
    | some d =>
      let st' : AggState :=
        { st with written := st.written ++ [d], total_clips := st.total_clips + 1 }
      if r.video_cut_success then
        { st' with
          video_cut_success := st'.video_cut_success + 1
          processed_videos :=
            if r.video_id ≠ "" ∧ r.video_id ∉ st'.processed_videos then
              st'.processed_videos ++ [r.video_id]
            else st'.processed_videos }
      else { st' with video_cut_failed := st'.video_cut_failed + 1 }
    | none => st
  else { st with video_cut_failed := st.video_cut_failed + 1 }

/-- The whole aggregation loop over the pool's results, in order. -/
def aggregate (results : List Outcome) : AggState :=
  results.foldl aggStep ⟨[], 0, 0, 0, []⟩

/-- `pool.imap(process_single_clip, all_clips)` modelled from the contract of
`multiprocessing.Pool.imap`: workers may *complete* in any schedule, but each
completion is keyed by its input index and the iterator hands results back in
input-index order.  `completed` is the completion log `(index, outcome)` in
completion order; the reassembled list reads index `0, 1, ...` in turn. -/
def reassemble (n : Nat) (completed : List (Nat × Outcome)) : List Outcome :=
  (List.range n).filterMap (fun i => completed.lookup i)

/-- The completion log of a run whose workers finish in the order `sched`. -/
def completionLog (tasks : List ClipTask) (sched : List Nat) : List (Nat × Outcome) :=
  sched.map (fun i => (i, process_single_clip (tasks.getD i default)))

/-! ## Lemmas about the Clip Segmenter -/

/-- Full characterisation of the inner scan: every index passed over satisfies
both bounds, and the scan stops either on a violating index or on the final
index of the sequence. -/
theorem stopGo_spec (words : List Word) (mc mg : ℚ) (i j : Nat) (hj : j < words.length) :
    (∀ k, j ≤ k → k < stopGo words mc mg i j → violates words mc mg i k = false) ∧
    (violates words mc mg i (stopGo words mc mg i j) = true ∨
      stopGo words mc mg i j = words.length - 1) := by
  rw [stopGo]
  by_cases hv : violates words mc mg i j = true
  · rw [if_pos hv]
    exact ⟨fun k hk1 hk2 => absurd (lt_of_le_of_lt hk1 hk2) (lt_irrefl j), Or.inl hv⟩
  · have hv' : violates words mc mg i j = false := by
      cases h : violates words mc mg i j
      · rfl
      · exact absurd h hv
    rw [if_neg hv]
    by_cases hl : j + 1 < words.length
    · rw [dif_pos hl]
      have IH := stopGo_spec words mc mg i (j + 1) hl
      refine ⟨fun k hk1 hk2 => ?_, IH.2⟩
      rcases Nat.eq_or_lt_of_le hk1 with h | h
      · exact h ▸ hv'
      · exact IH.1 k h hk2
    · rw [dif_neg hl]
      exact ⟨fun k hk1 hk2 => absurd (lt_of_le_of_lt hk1 hk2) (lt_irrefl j),
        Or.inr (by omega)⟩
termination_by words.length - j
decreasing_by omega

/-- If no index of the whole tail satisfies a break condition, the scan runs to
the final index and stops there. -/
theorem stopGo_no_violation (words : List Word) (mc mg : ℚ) (i j : Nat)
    (hj : j < words.length)
    (hnv : ∀ k, j ≤ k → k < words.length → violates words mc mg i k = false) :
    stopGo words mc mg i j = words.length - 1 := by
  rw [stopGo]
  have hv := hnv j (le_refl j) hj
  rw [if_neg (by rw [hv]; exact Bool.false_ne_true)]
  by_cases hl : j + 1 < words.length
  · rw [dif_pos hl]
    exact stopGo_no_violation words mc mg i (j + 1) hl (fun k hk1 hk2 => hnv k (by omega) hk2)
  · rw [dif_neg hl]
    omega
termination_by words.length - j
decreasing_by omega

/-- Invariant of every emitted span `(p.1, p.2)` from cursor `i`: it starts at
or after `i`, is non-empty, ends inside the sequence, meets the minimum-span
condition that gated its emission, and no interior index of the clip violates
a bound relative to the clip's first word. -/
theorem clipSpansAux_mem (words : List Word) (mc mg mn : ℚ) (i : Nat) (p : Nat × Nat)
    (hp : p ∈ clipSpansAux words mc mg mn i) :
    i ≤ p.1 ∧ p.1 + 1 ≤ p.2 ∧ p.2 < words.length ∧
      mn ≤ wEnd words (p.2 - 1) - wEnd words p.1 ∧
      (∀ k, p.1 + 1 ≤ k → k < p.2 → violates words mc mg p.1 k = false) := by
  rw [clipSpansAux] at hp
  by_cases hl : i + 1 < words.length
  · rw [dif_pos hl] at hp
    set j := stopGo words mc mg i (i + 1) with hjdef
    have hge : i + 1 ≤ j := stopGo_ge words mc mg i (i + 1)
    have hlt : j < words.length := stopGo_lt words mc mg i (i + 1) (by omega)
    have hspec := stopGo_spec words mc mg i (i + 1) (by omega)
    by_cases hemit : i < j ∧ mn ≤ wEnd words (j - 1) - wEnd words i
    · rw [if_pos hemit] at hp
      rcases List.mem_cons.mp hp with h | h
      · subst h
        exact ⟨le_refl i, hge, hlt, hemit.2, fun k hk1 hk2 => hspec.1 k hk1 hk2⟩
      · have IH := clipSpansAux_mem words mc mg mn j p h
        exact ⟨by omega, IH.2.1, IH.2.2.1, IH.2.2.2.1, IH.2.2.2.2⟩
    · rw [if_neg hemit] at hp
      have IH := clipSpansAux_mem words mc mg mn j p hp
      exact ⟨by omega, IH.2.1, IH.2.2.1, IH.2.2.2.1, IH.2.2.2.2⟩
  · rw [dif_neg hl] at hp
    exact absurd hp (List.not_mem_nil p)
termination_by words.length - i
decreasing_by
  all_goals
    have := stopGo_ge words mc mg i (i + 1)
    omega

/-- The emitted spans are pairwise disjoint and in increasing index order:
each span ends no later than the next one starts. -/
theorem clipSpansAux_pairwise (words : List Word) (mc mg mn : ℚ) (i : Nat) :
    (clipSpansAux words mc mg mn i).Pairwise (fun p q => p.2 ≤ q.1) := by
  rw [clipSpansAux]
  by_cases hl : i + 1 < words.length
  · rw [dif_pos hl]
    set j := stopGo words mc mg i (i + 1) with hjdef
    by_cases hemit : i < j ∧ mn ≤ wEnd words (j - 1) - wEnd words i
    · rw [if_pos hemit]
      refine List.Pairwise.cons (fun q hq => ?_) (clipSpansAux_pairwise words mc mg mn j)
      exact (clipSpansAux_mem words mc mg mn j q hq).1
    · rw [if_neg hemit]
      exact clipSpansAux_pairwise words mc mg mn j
  · rw [dif_neg hl]
    exact List.Pairwise.nil
termination_by words.length - i
decreasing_by
  all_goals
    have := stopGo_ge words mc mg i (i + 1)
    omega

/-- Unfolding the two break conditions: an index that does not violate keeps
both the span bound and the gap bound. -/
theorem violates_false_iff (words : List Word) (mc mg : ℚ) (i k : Nat) :
    violates words mc mg i k = false ↔
      wEnd words k - wEnd words i ≤ mc ∧ wEnd words k - wEnd words (k - 1) ≤ mg := by
  rw [violates]
  by_cases h1 : mc < wEnd words k - wEnd words i
  · rw [if_pos h1]
    simp [not_le.mpr h1]
  · rw [if_neg h1]
    by_cases h2 : mg < wEnd words k - wEnd words (k - 1)
    · rw [if_pos h2]
      simp [not_le.mpr h2]
    · rw [if_neg h2]
      simp [not_lt.mp h1, not_lt.mp h2]

/-- `getD` with the default at an in-range index is plain indexing. -/
theorem getD_eq_getElem_in (l : List Word) (n : Nat) (h : n < l.length) :
    l.getD n default = l[n] := by
  rw [List.getD_eq_getElem?_getD, List.getElem?_eq_getElem h]
  rfl

/-- `headI` of a non-empty list is its first element. -/
theorem headI_eq_getD (l : List Word) (h : 0 < l.length) : l.headI = l.getD 0 default := by
  cases l with
  | nil => simp at h
  | cons a t => rfl

theorem sliceWords_length (words : List Word) (i j : Nat) (hj : j ≤ words.length) :
    (sliceWords words i j).length = j - i := by
  simp only [sliceWords, List.length_take, List.length_drop]
  omega

theorem sliceWords_getElem? (words : List Word) (i j k : Nat) (hk : k < j - i) :
    (sliceWords words i j)[k]? = words[i + k]? := by
  rw [sliceWords, List.getElem?_take_of_lt hk, List.getElem?_drop]

/-- `clip[0]` of the slice `words[i:j]` is `words[i]`. -/
theorem sliceWords_headI (words : List Word) (i j : Nat) (hij : i < j)
    (hi : i < words.length) :
    (sliceWords words i j).headI = words.getD i default := by
  have hpos : 0 < (sliceWords words i j).length := by
    simp only [sliceWords, List.length_take, List.length_drop]
    omega
  rw [headI_eq_getD _ hpos, List.getD_eq_getElem?_getD,
    sliceWords_getElem? words i j 0 (by omega), Nat.add_zero,
    ← List.getD_eq_getElem?_getD]

/-- `clip[-1]` of the slice `words[i:j]` is `words[j-1]`. -/
theorem sliceWords_getLastD (words : List Word) (i j : Nat) (hij : i < j)
    (hj : j ≤ words.length) :
    (sliceWords words i j).getLastD default = words.getD (j - 1) default := by
  rw [List.getLastD_eq_getLast?, List.getLast?_eq_getElem?,
    sliceWords_length words i j hj,
    sliceWords_getElem? words i j (j - i - 1) (by omega),
    show i + (j - i - 1) = j - 1 by omega,
    ← List.getD_eq_getElem?_getD]

/-- The slice `words[i:j]` of an emitted span is non-empty. -/
theorem sliceWords_ne_nil (words : List Word) (i j : Nat) (hij : i < j)
    (hi : i < words.length) :
    sliceWords words i j ≠ [] := by
  have hpos : 0 < (sliceWords words i j).length := by
    simp only [sliceWords, List.length_take, List.length_drop]
    omega
  exact List.ne_nil_of_length_pos hpos

/-- Bound for `clipIters`: each loop iteration either advances the cursor by at
least one (to the stop index `j ≥ i+1`) or is the final one, so the number of
iterations from cursor `i` is at most `words.length - i`. -/
theorem clipIters_le (words : List Word) (mc mg : ℚ) (i : Nat) :
    clipIters words mc mg i ≤ words.length - i := by
  rw [clipIters]
  by_cases hi : i < words.length
  · rw [if_pos hi]
    by_cases hl : i + 1 < words.length
    · rw [dif_pos hl]
      have hge := stopGo_ge words mc mg i (i + 1)
      have IH := clipIters_le words mc mg (stopGo words mc mg i (i + 1))
      omega
    · rw [dif_neg hl]
      omega
  · rw [if_neg hi]
    omega
termination_by words.length - i
decreasing_by
  have := stopGo_ge words mc mg i (i + 1)
  omega

/-! ## Claim theorems -/

/-- C4. The density filter `check` accepts exactly the clips whose word span is
non-empty, whose end-to-end duration `wordSpan[last].end - wordSpan[0].end` is
strictly positive, and whose words-per-second ratio lies in the inclusive
interval `[min_wps, max_wps]`; in particular a ratio exactly equal to either
bound is accepted and one beyond either bound is rejected. -/
theorem c4_density_filter (subtitles : List Word) (min_wps max_wps : ℚ) :
    check subtitles min_wps max_wps = true ↔
      (subtitles ≠ [] ∧
        0 < (subtitles.getLastD default).we - subtitles.headI.we ∧
        min_wps ≤ (subtitles.length : ℚ) /
          ((subtitles.getLastD default).we - subtitles.headI.we) ∧
        (subtitles.length : ℚ) /
          ((subtitles.getLastD default).we - subtitles.headI.we) ≤ max_wps) := by
  rw [check]
  by_cases h0 : subtitles.length = 0
  · rw [if_pos h0]
    simp [List.length_eq_zero.mp h0]
  · rw [if_neg h0]
    by_cases hd : (subtitles.getLastD default).we - subtitles.headI.we ≤ 0
    · rw [if_pos hd]
      simp only [Bool.false_eq_true, false_iff, not_and]
      intro _ hpos
      exact absurd hpos (not_lt.mpr hd)
    · rw [if_neg hd]
      by_cases hw : (subtitles.length : ℚ) /
          ((subtitles.getLastD default).we - subtitles.headI.we) < min_wps ∨
          max_wps < (subtitles.length : ℚ) /
          ((subtitles.getLastD default).we - subtitles.headI.we)
      · rw [if_pos hw]
        simp only [Bool.false_eq_true, false_iff, not_and]
        intro _ _ h1
        rcases hw with hw | hw
        · exact absurd h1 (not_le.mpr hw)
        · intro h2
          exact absurd h2 (not_le.mpr hw)
      · rw [if_neg hw]
        push_neg at hw
        simp only [true_iff]
        exact ⟨fun h => h0 (by simp [h]), not_le.mp hd, hw.1, hw.2⟩

/-- C3. Inside any clip emitted by the segmenter, every adjacent pair of words
has end-to-end gap at most `max_empty_sec`; contrapositively, at any position
whose gap exceeds `max_empty_sec`, no emitted clip contains both words of that
pair — so making one gap too large always severs the clip there. -/
theorem c3_gap_property (words : List Word) (mc mg mn : ℚ) :
    (∀ p ∈ clipSpans words mc mg mn, ∀ k, p.1 < k → k < p.2 →
      wEnd words k - wEnd words (k - 1) ≤ mg) ∧
    (∀ k, mg < wEnd words k - wEnd words (k - 1) →
      ∀ p ∈ clipSpans words mc mg mn, ¬(p.1 < k ∧ k < p.2)) := by
  have main : ∀ p ∈ clipSpans words mc mg mn, ∀ k, p.1 < k → k < p.2 →
      wEnd words k - wEnd words (k - 1) ≤ mg := by
    intro p hp k hk1 hk2
    have hm := clipSpansAux_mem words mc mg mn 0 p hp
    have hv := hm.2.2.2.2 k (by omega) hk2
    exact ((violates_false_iff words mc mg p.1 k).mp hv).2
  refine ⟨main, fun k hgap p hp hk => ?_⟩
  exact absurd (main p hp k hk.1 hk.2) (not_le.mpr hgap)

/-- C10. The segmentation loop terminates on every finite word sequence: the
stop index returned by the inner scan always satisfies `j ≥ i + 1` (and stays
inside the sequence), so the cursor strictly increases and the number of
iterations of the `while` loop is bounded by the number of words. -/
theorem c10_termination (words : List Word) (mc mg : ℚ) :
    (∀ i j, stopIdx words mc mg i = some j → i + 1 ≤ j ∧ j < words.length) ∧
    (∀ i, clipIters words mc mg i ≤ words.length - i) ∧
    clipIters words mc mg 0 ≤ words.length := by
  refine ⟨fun i j hij => ?_, clipIters_le words mc mg, by
    have := clipIters_le words mc mg 0
    omega⟩
  rw [stopIdx] at hij
  by_cases hl : i + 1 < words.length
  · rw [if_pos hl] at hij
    have hj := Option.some_injective _ hij
    subst hj
    exact ⟨stopGo_ge words mc mg i (i + 1), stopGo_lt words mc mg i (i + 1) hl⟩
  · rw [if_neg hl] at hij
    exact absurd hij (Option.noConfusion)

/-- C1 (amended). On a word list whose start times are strictly increasing and
whose words each satisfy `start ≤ end`, and with a non-negative
`max_clip_sec`: the emitted spans are pairwise disjoint in word index, each
span is non-empty, its *end-to-end* extent `words[j-1].end - words[i].end` is
bounded by `max_clip_sec` and at least `min_clip_sec`; the clip records are
strictly ordered by `start_time`, and each record's duration
`end_time - start_time` is at least `min_clip_sec` while its end-to-end extent
`end_time - content[0].end` is at most `max_clip_sec`.  (The claim's bound
`end_time - start_time ≤ max_clip_sec` is false on the code — see the
counterexample — because the scan measures spans from the *end* of the first
word, while `start_time` is that word's *start*.) -/
theorem c1_segmenter_invariants (d : VideoDatum) (a : ClipArgs)
    (hsort : d.content.Pairwise (fun u v => u.ws < v.ws))
    (hwe : ∀ w ∈ d.content, w.ws ≤ w.we)
    (hmc : 0 ≤ a.max_clip_sec) :
    (clipSpans d.content a.max_clip_sec a.max_empty_sec a.min_clip_sec).Pairwise
      (fun p q => p.2 ≤ q.1) ∧
    (∀ p ∈ clipSpans d.content a.max_clip_sec a.max_empty_sec a.min_clip_sec,
      p.1 < p.2 ∧ p.2 ≤ d.content.length ∧
      wEnd d.content (p.2 - 1) - wEnd d.content p.1 ≤ a.max_clip_sec ∧
      a.min_clip_sec ≤ wEnd d.content (p.2 - 1) - wEnd d.content p.1) ∧
    (clip4pretrain d a).Pairwise (fun c c' => c.start_time < c'.start_time) ∧
    (∀ c ∈ clip4pretrain d a,
      a.min_clip_sec ≤ c.end_time - c.start_time ∧
      c.end_time - c.content.headI.we ≤ a.max_clip_sec) := by
  set words := d.content with hwords
  set mc := a.max_clip_sec
  set mg := a.max_empty_sec
  set mn := a.min_clip_sec
  have memf : ∀ p ∈ clipSpans words mc mg mn,
      p.1 < p.2 ∧ p.2 ≤ words.length ∧
      wEnd words (p.2 - 1) - wEnd words p.1 ≤ mc ∧
      mn ≤ wEnd words (p.2 - 1) - wEnd words p.1 := by
    intro p hp
    have hm := clipSpansAux_mem words mc mg mn 0 p hp
    refine ⟨by omega, by omega, ?_, hm.2.2.2.1⟩
    by_cases hone : p.1 + 1 ≤ p.2 - 1
    · have hv := hm.2.2.2.2 (p.2 - 1) hone (by omega)
      exact ((violates_false_iff words mc mg p.1 (p.2 - 1)).mp hv).1
    · have : p.2 - 1 = p.1 := by omega
      rw [this]
      simpa using hmc
  have hpair := clipSpansAux_pairwise words mc mg mn 0
  have hsort' : ∀ u v : Nat, u < v → v < words.length →
      (words.getD u default).ws < (words.getD v default).ws := by
    intro u v huv hv
    rw [getD_eq_getElem_in words u (by omega), getD_eq_getElem_in words v hv]
    exact List.pairwise_iff_getElem.mp hsort u v (by omega) hv huv
  refine ⟨hpair, memf, ?_, ?_⟩
  · rw [clip4pretrain, List.pairwise_map]
    refine hpair.imp_of_mem ?_
    intro p q hp hq hpq
    have hmp := memf p hp
    have hmq := memf q hq
    have hplt : p.1 < words.length := by omega
    have hqlt : q.1 < words.length := by omega
    have h1 : (mkClipRec d p).start_time = (words.getD p.1 default).ws := by
      rw [mkClipRec]
      simp only [← hwords]
      rw [sliceWords_headI words p.1 p.2 hmp.1 hplt]
    have h2 : (mkClipRec d q).start_time = (words.getD q.1 default).ws := by
      rw [mkClipRec]
      simp only [← hwords]
      rw [sliceWords_headI words q.1 q.2 hmq.1 hqlt]
    rw [h1, h2]
    exact hsort' p.1 q.1 (by omega) hqlt
  · rw [clip4pretrain]
    intro c hc
    rcases List.mem_map.mp hc with ⟨p, hp, hcp⟩
    have hm := memf p hp
    have hplt : p.1 < words.length := by omega
    have hstart : c.start_time = (words.getD p.1 default).ws := by
      rw [← hcp, mkClipRec]
      simp only [← hwords]
      rw [sliceWords_headI words p.1 p.2 hm.1 hplt]
    have hend : c.end_time = wEnd words (p.2 - 1) := by
      rw [← hcp, mkClipRec]
      simp only [← hwords]
      rw [sliceWords_getLastD words p.1 p.2 hm.1 hm.2.1]
      rfl
    have hhead : c.content.headI.we = wEnd words p.1 := by
      rw [← hcp, mkClipRec]
      simp only [← hwords]
      rw [sliceWords_headI words p.1 p.2 hm.1 hplt]
      rfl
    have hws : (words.getD p.1 default).ws ≤ wEnd words p.1 := by
      rw [getD_eq_getElem_in words p.1 hplt, wEnd, getD_eq_getElem_in words p.1 hplt]
      exact hwe _ (List.getElem_mem hplt)
    constructor
    · rw [hstart, hend]
      have := hm.2.2.2
      have : mn ≤ wEnd words (p.2 - 1) - wEnd words p.1 := hm.2.2.2
      linarith
    · rw [hend, hhead]
      exact hm.2.2.1

/-- C2 (amended). When the forward scan from cursor `i` reaches the end of the
word sequence without any violation, Python's loop variable retains the *final
index* `len(words) - 1` (it does not stay `None`), so a clip covering
`words[i : len(words)-1]` — excluding the very last word — *is* emitted
whenever its span meets `min_clip_sec`; the last word itself is always
discarded, and the following iteration (cursor at the last word, empty scan
range) terminates the segmentation with no further clip.  The scan yields
`None` and stops silently only when the range `range(i+1, len(words))` is
empty to begin with. -/
theorem c2_trailing_scan (words : List Word) (mc mg mn : ℚ) (i : Nat)
    (h1 : i + 1 < words.length)
    (hnv : ∀ k, i + 1 ≤ k → k < words.length → violates words mc mg i k = false) :
    stopIdx words mc mg i = some (words.length - 1) ∧
    clipSpansAux words mc mg mn i =
      (if mn ≤ wEnd words (words.length - 2) - wEnd words i then
        [(i, words.length - 1)] else []) ∧
    (∀ i', words.length ≤ i' + 1 → clipSpansAux words mc mg mn i' = []) := by
  have hstop : stopGo words mc mg i (i + 1) = words.length - 1 :=
    stopGo_no_violation words mc mg i (i + 1) h1 hnv
  have htail : ∀ i', words.length ≤ i' + 1 → clipSpansAux words mc mg mn i' = [] := by
    intro i' hi'
    rw [clipSpansAux, dif_neg (by omega)]
  refine ⟨by rw [stopIdx, if_pos h1, hstop], ?_, htail⟩
  rw [clipSpansAux, dif_pos h1]
  simp only [hstop]
  have hrest : clipSpansAux words mc mg mn (words.length - 1) = [] :=
    htail (words.length - 1) (by omega)
  have hidx : words.length - 1 - 1 = words.length - 2 := by omega
  by_cases hemit : mn ≤ wEnd words (words.length - 2) - wEnd words i
  · rw [if_pos (by rw [hidx]; exact ⟨by omega, hemit⟩), if_pos hemit, hrest]
  · rw [if_neg ?_, if_neg hemit, hrest]
    rw [hidx]
    intro hco
    exact absurd hco.2 hemit

/-! ## Concrete runs of the segmenter -/

/-- Sorted words whose first word is long: ends `10, 12, 14`, starts `0, 10, 12`. -/
def exC1 : List Word := [⟨0, 10, "a"⟩, ⟨10, 12, "b"⟩, ⟨12, 14, "c"⟩]

def exD1 : VideoDatum := ⟨"v", "t", "game", exC1⟩

/-- `min_clip_sec = 1`, `max_clip_sec = 5`, `max_empty_sec = 100`. -/
def exA1 : ClipArgs := ⟨1, 5, 100, 1, 4⟩

/-- Four words with ends `0, 1, 2, 3`: with large bounds, no index violates. -/
def exC2 : List Word := [⟨0, 0, "w0"⟩, ⟨1/2, 1, "w1"⟩, ⟨3/2, 2, "w2"⟩, ⟨5/2, 3, "w3"⟩]

/-- The spec's concrete scenario: words `a, b, c` spoken continuously, then a
3.5-second pause before `d`. -/
def exSpec : List Word := [⟨0, 1/2, "a"⟩, ⟨1/2, 1, "b"⟩, ⟨1, 3/2, "c"⟩, ⟨5, 11/2, "d"⟩]

def exDS : VideoDatum := ⟨"v", "t", "game", exSpec⟩

/-- `min_clip_sec = 1`, `max_clip_sec = 10`, `max_empty_sec = 2`. -/
def exAS : ClipArgs := ⟨1, 10, 2, 1, 4⟩

theorem exC1_spans : clipSpans exC1 5 100 1 = [(0, 2)] := by
  have hv1 : violates exC1 5 100 0 1 = false := by
    rw [violates]; norm_num [wEnd, exC1]
  have hv2 : violates exC1 5 100 0 2 = false := by
    rw [violates]; norm_num [wEnd, exC1]
  have hlen : exC1.length = 3 := rfl
  have hstop : stopGo exC1 5 100 0 1 = 2 := by
    rw [stopGo, hv1]
    norm_num [hlen]
    rw [stopGo, hv2]
    norm_num [hlen]
  rw [clipSpans, clipSpansAux]
  norm_num [hlen, hstop]
  rw [show wEnd exC1 1 = 12 from rfl, show wEnd exC1 0 = 10 from rfl]
  norm_num
  rw [clipSpansAux]
  norm_num [hlen]

theorem exC2_v1 : violates exC2 100 100 0 1 = false := by
  rw [violates]; norm_num [wEnd, exC2]

theorem exC2_v2 : violates exC2 100 100 0 2 = false := by
  rw [violates]; norm_num [wEnd, exC2]

theorem exC2_v3 : violates exC2 100 100 0 3 = false := by
  rw [violates]; norm_num [wEnd, exC2]

theorem exC2_spans : clipSpans exC2 100 100 1 = [(0, 3)] := by
  have hlen : exC2.length = 4 := rfl
  have hstop : stopGo exC2 100 100 0 1 = 3 := by
    rw [stopGo, exC2_v1]
    norm_num [hlen]
    rw [stopGo, exC2_v2]
    norm_num [hlen]
    rw [stopGo, exC2_v3]
    norm_num [hlen]
  rw [clipSpans, clipSpansAux]
  norm_num [hlen, hstop]
  rw [show wEnd exC2 2 = 2 from rfl, show wEnd exC2 0 = 0 from rfl]
  norm_num
  rw [clipSpansAux]
  norm_num [hlen]

theorem exSpec_stop : stopGo exSpec 10 2 0 1 = 3 := by
  have hv1 : violates exSpec 10 2 0 1 = false := by
    rw [violates]; norm_num [wEnd, exSpec]
  have hv2 : violates exSpec 10 2 0 2 = false := by
    rw [violates]; norm_num [wEnd, exSpec]
  have hv3 : violates exSpec 10 2 0 3 = true := by
    rw [violates]; norm_num [wEnd, exSpec]
  have hlen : exSpec.length = 4 := rfl
  rw [stopGo, hv1]
  norm_num [hlen]
  rw [stopGo, hv2]
  norm_num [hlen]
  rw [stopGo, hv3]
  simp

theorem exSpec_spans : clipSpans exSpec 10 2 1 = [(0, 3)] := by
  have hlen : exSpec.length = 4 := rfl
  rw [clipSpans, clipSpansAux]
  norm_num [hlen, exSpec_stop]
  rw [show wEnd exSpec 2 = 3/2 from rfl, show wEnd exSpec 0 = 1/2 from rfl]
  norm_num
  rw [clipSpansAux]
  norm_num [hlen]

/-- C1 (counterexample).  With `max_clip_sec = 5` the segmenter still emits a
clip whose `end_time - start_time` is `12`: the scan bounds only the distance
between word *end* times (`12 - 10 = 2 ≤ 5`), while the clip's `start_time`
is the first word's *start* time `0`. -/
theorem c1_counterexample :
    clip4pretrain exD1 exA1 =
      [⟨"v", [⟨0, 10, "a"⟩, ⟨10, 12, "b"⟩], "", "t", "game", 0, 12⟩] ∧
    exA1.max_clip_sec <
      (clip4pretrain exD1 exA1).headI.end_time -
        (clip4pretrain exD1 exA1).headI.start_time := by
  have hmain : clip4pretrain exD1 exA1 =
      [⟨"v", [⟨0, 10, "a"⟩, ⟨10, 12, "b"⟩], "", "t", "game", 0, 12⟩] := by
    rw [clip4pretrain]
    rw [show exD1.content = exC1 from rfl, show exA1.max_clip_sec = 5 from rfl,
      show exA1.max_empty_sec = 100 from rfl, show exA1.min_clip_sec = 1 from rfl,
      exC1_spans]
    rfl
  refine ⟨hmain, ?_⟩
  rw [hmain]
  rw [show exA1.max_clip_sec = 5 from rfl]
  norm_num

/-- C1 (witness for the amended invariants, on the spec's own scenario). -/
theorem c1_witness :
    (clip4pretrain exDS exAS).Pairwise (fun c c' => c.start_time < c'.start_time) ∧
    (∀ c ∈ clip4pretrain exDS exAS,
      exAS.min_clip_sec ≤ c.end_time - c.start_time ∧
      c.end_time - c.content.headI.we ≤ exAS.max_clip_sec) := by
  have h := c1_segmenter_invariants exDS exAS
    (by
      rw [show exDS.content = exSpec from rfl, exSpec]
      norm_num [List.pairwise_cons])
    (by
      intro w hw
      rw [show exDS.content = exSpec from rfl, exSpec] at hw
      simp only [List.mem_cons, List.not_mem_nil, or_false] at hw
      rcases hw with h | h | h | h <;> subst h <;> norm_num)
    (by rw [show exAS.max_clip_sec = 10 from rfl]; norm_num)
  exact ⟨h.2.2.1, h.2.2.2⟩

/-- C2 (counterexample).  On four words with ends `0,1,2,3` and permissive
bounds, the scan from cursor `0` covers the whole range `range(1, 4)` without
a single violation — yet the run emits the clip `(0, 3)`: reaching the end of
the sequence without a violation does *not* discard the scanned words. -/
theorem c2_counterexample :
    violates exC2 100 100 0 1 = false ∧
    violates exC2 100 100 0 2 = false ∧
    violates exC2 100 100 0 3 = false ∧
    exC2.length = 4 ∧
    clipSpans exC2 100 100 1 = [(0, 3)] :=
  ⟨exC2_v1, exC2_v2, exC2_v3, rfl, exC2_spans⟩

/-- C2 (witness for the amended behaviour at end-of-sequence). -/
theorem c2_witness :
    stopIdx exC2 100 100 0 = some (exC2.length - 1) ∧
    clipSpansAux exC2 100 100 1 0 =
      (if (1 : ℚ) ≤ wEnd exC2 (exC2.length - 2) - wEnd exC2 0 then
        [(0, exC2.length - 1)] else []) := by
  have h := c2_trailing_scan exC2 100 100 1 0 (by norm_num [exC2])
    (by
      intro k h1 h2
      rw [show exC2.length = 4 from rfl] at h2
      rcases show k = 1 ∨ k = 2 ∨ k = 3 by omega with h | h | h <;> subst h
      · exact exC2_v1
      · exact exC2_v2
      · exact exC2_v3)
  exact ⟨h.1, h.2.1⟩

/-- C3 (witness): in the spec scenario the emitted clip `(0, 3)` keeps every
interior gap within `max_empty_sec = 2`, and the oversized gap before word `d`
(`5.5 - 1.5 = 4 > 2`) is provably outside every emitted clip. -/
theorem c3_witness :
    ((0, 3) ∈ clipSpans exSpec 10 2 1 ∧
      wEnd exSpec 1 - wEnd exSpec 0 ≤ 2 ∧
      wEnd exSpec 2 - wEnd exSpec 1 ≤ 2) ∧
    ¬((0, 3).1 < 3 ∧ 3 < (0, 3).2) := by
  have h := c3_gap_property exSpec 10 2 1
  have hsp : (0, 3) ∈ clipSpans exSpec 10 2 1 := by
    rw [exSpec_spans]
    exact List.mem_singleton.mpr rfl
  refine ⟨⟨hsp, h.1 (0, 3) hsp 1 (by omega) (by omega),
    h.1 (0, 3) hsp 2 (by omega) (by omega)⟩, ?_⟩
  refine h.2 3 ?_ (0, 3) hsp
  rw [show wEnd exSpec 3 = 11/2 from rfl, show wEnd exSpec 2 = 3/2 from rfl]
  norm_num

/-- C10 (witness): on the spec scenario the scan from cursor `0` stops at
index `3 ≥ 0 + 1`, and the loop runs at most `exSpec.length` iterations. -/
theorem c10_witness :
    (0 + 1 ≤ 3 ∧ 3 < exSpec.length) ∧
    clipIters exSpec 10 2 0 ≤ exSpec.length - 0 := by
  have h := c10_termination exSpec 10 2
  refine ⟨h.1 0 3 ?_, h.2.1 0⟩
  rw [stopIdx, if_pos (by rw [show exSpec.length = 4 from rfl]; omega)]
  rw [show (0 + 1 : Nat) = 1 from rfl, exSpec_stop]

/-! ## Transcode Executor claims -/

/-- A `true` verdict of the re-encode fallback comes from a verified output file. -/
theorem runEncodePath_true (env : CutEnv) (h : runEncodePath env = true) :
    verify_video_file env.fileAfterEncode env.ffprobeAvailable env.probeAfterEncode = true := by
  rw [runEncodePath] at h
  cases henc : env.encodeRun with
  | ok rc codec =>
    rw [henc] at h
    simp only [] at h
    by_cases hrc : rc ≠ 0
    · rw [if_pos hrc] at h
      exact absurd h Bool.false_ne_true
    · rw [if_neg hrc] at h
      exact h
  | timeout => simp [henc] at h
  | exn => simp [henc] at h

/-- C8 (amended).  `verify_video_file` accepts exactly the files that exist,
are non-empty, and either pass a completed probe (exit 0 with a codec line) or
— when the probe tool is unavailable *or the probe attempt itself raises* —
exceed the 1KB size heuristic; and whenever `cut_video` reports success, the
output file it produced passed that verification (after the copy attempt or
after the re-encode fallback).  `cut_video` itself is a total Boolean
function of its environment: every tool failure is returned as `false`, never
raised. -/
theorem c8_executor_verification :
    (∀ (fs : FileState) (probeAvail : Bool) (probe : RunOutcome),
      verify_video_file fs probeAvail probe = true ↔
        (fs.pathExists = true ∧ fs.size ≠ 0 ∧
          ((probeAvail = true ∧ probeConfirms probe = true) ∨
           ((probeAvail = false ∨ probeRaised probe = true) ∧ 1024 < fs.size)))) ∧
    (∀ (env : CutEnv) (tc : Bool), cut_video env tc = true →
      verify_video_file env.fileAfterCopy env.ffprobeAvailable env.probeAfterCopy = true ∨
      verify_video_file env.fileAfterEncode env.ffprobeAvailable env.probeAfterEncode = true) := by
  constructor
  · intro fs pa probe
    rcases fs with ⟨pe, sz⟩
    cases pe with
    | false => simp [verify_video_file]
    | true =>
      cases pa with
      | false =>
        cases probe
          <;> simp [verify_video_file, probeConfirms, probeRaised]
      | true =>
        cases probe with
        | ok rc codec => simp [verify_video_file, probeConfirms, probeRaised]
        | timeout => simp [verify_video_file, probeConfirms, probeRaised]
        | exn => simp [verify_video_file, probeConfirms, probeRaised]
  · intro env tc h
    rw [cut_video] at h
    cases hff : env.ffmpegAvailable with
    | false => simp [hff] at h
    | true =>
      rw [hff] at h
      simp only [Bool.not_true, Bool.false_eq_true, if_false] at h
      cases tc with
      | false => exact Or.inr (runEncodePath_true env h)
      | true =>
        simp only [if_true] at h
        cases hcopy : env.copyRun with
        | ok rc codec =>
          rw [hcopy] at h
          simp only [] at h
          by_cases hc : (decide (rc = 0) &&
              verify_video_file env.fileAfterCopy env.ffprobeAvailable env.probeAfterCopy) = true
          · simp only [Bool.and_eq_true] at hc
            exact Or.inl hc.2
          · rw [if_neg hc] at h
            exact Or.inr (runEncodePath_true env h)
        | timeout => simp [hcopy] at h
        | exn => simp [hcopy] at h

/-- Environment in which the copy attempt exits 0 and the probe *times out*
over a large file: `cut_video` succeeds through the size heuristic even
though `ffprobe` is available and never confirmed a decodable stream. -/
def exEnvBad : CutEnv :=
  ⟨true, true, .ok 0 false, ⟨true, 2000⟩, .timeout, .exn, ⟨false, 0⟩, .exn⟩

/-- C8 (counterexample).  The claim's verification disjunction — "a probing
tool confirms a decodable video stream or, with probing *unavailable*, the
file exceeds 1KB" — does not cover this successful run: probing is available
but raised, and the code still reports success via the size heuristic. -/
theorem c8_counterexample :
    cut_video exEnvBad true = true ∧
    exEnvBad.ffprobeAvailable = true ∧
    probeConfirms exEnvBad.probeAfterCopy = false ∧
    probeConfirms exEnvBad.probeAfterEncode = false := by
  refine ⟨?_, rfl, rfl, rfl⟩
  rw [cut_video]
  rfl

/-- Environment of a clean copy-mode success with a confirming probe. -/
def exEnvGood : CutEnv :=
  ⟨true, true, .ok 0 false, ⟨true, 5000⟩, .ok 0 true, .exn, ⟨false, 0⟩, .exn⟩

/-- C8 (witness): a successful `cut_video` run did verify one of its outputs. -/
theorem c8_witness :
    verify_video_file exEnvGood.fileAfterCopy exEnvGood.ffprobeAvailable
        exEnvGood.probeAfterCopy = true ∨
    verify_video_file exEnvGood.fileAfterEncode exEnvGood.ffprobeAvailable
        exEnvGood.probeAfterEncode = true :=
  c8_executor_verification.2 exEnvGood true (by rw [cut_video]; rfl)

/-! ## Orchestrator claims -/

/-- Counting a predicate and its negation covers the list. -/
theorem countP_not_add {α : Type} (p : α → Bool) (l : List α) :
    l.countP p + l.countP (fun a => !(p a)) = l.length := by
  induction l with
  | nil => rfl
  | cons a tl ih =>
    simp only [List.countP_cons, List.length_cons]
    cases h : p a <;> simp [h] <;> omega

/-- Effect of one aggregation step on a successful outcome carrying a record. -/
theorem aggStep_success (st : AggState) (r : Outcome) (d : LiveCCData)
    (hs : r.success = true) (hd : r.live_cc_data = some d) :
    (aggStep st r).written = st.written ++ [d] ∧
    (aggStep st r).total_clips = st.total_clips + 1 ∧
    (aggStep st r).video_cut_success =
      st.video_cut_success + (if r.video_cut_success then 1 else 0) ∧
    (aggStep st r).video_cut_failed =
      st.video_cut_failed + (if r.video_cut_success then 0 else 1) := by
  rw [aggStep, if_pos hs, hd]
  simp only []
  cases hv : r.video_cut_success <;> simp

/-- Folding the aggregation loop over all-successful outcomes: every outcome
writes its record (in order), and the cut counters split the batch by the
per-clip cut verdict. -/
theorem aggregate_fold (rs : List Outcome) :
    ∀ st : AggState, (∀ r ∈ rs, r.success = true ∧ r.live_cc_data.isSome = true) →
      (rs.foldl aggStep st).written.length = st.written.length + rs.length ∧
      (rs.foldl aggStep st).total_clips = st.total_clips + rs.length ∧
      (rs.foldl aggStep st).video_cut_success =
        st.video_cut_success + rs.countP (fun r => r.video_cut_success) ∧
      (rs.foldl aggStep st).video_cut_failed =
        st.video_cut_failed + rs.countP (fun r => !r.video_cut_success) := by
  induction rs with
  | nil => intro st _; simp
  | cons r tl ih =>
    intro st hall
    have hr := hall r (List.mem_cons_self r tl)
    obtain ⟨d, hd⟩ := Option.isSome_iff_exists.mp hr.2
    have hstep := aggStep_success st r d hr.1 hd
    have IH := ih (aggStep st r) (fun x hx => hall x (List.mem_cons_of_mem r hx))
    simp only [List.foldl_cons, List.countP_cons, List.length_cons]
    refine ⟨?_, ?_, ?_, ?_⟩
    · rw [IH.1, hstep.1]
      simp only [List.length_append, List.length_cons, List.length_nil]
      omega
    · rw [IH.2.1, hstep.2.1]
      omega
    · rw [IH.2.2.1, hstep.2.2.1]
      cases hv : r.video_cut_success <;> simp [hv] <;> omega
    · rw [IH.2.2.2, hstep.2.2.2]
      cases hv : r.video_cut_success <;> simp [hv] <;> omega

/-- C7. In a fault-free batch in which cutting is enabled, every source video
exists, and exactly one clip's `cut_video` fails: the orchestrator writes one
formatted record for *every* clip (`N` records), counts `N - 1` cut successes
and exactly `1` cut failure — and quite generally a raised per-clip exception
is converted into a failed outcome rather than propagated, so no clip aborts
the rest of the batch. -/
theorem c7_partial_failure (tasks : List ClipTask)
    (hfault : ∀ t ∈ tasks, t.fault = none)
    (hskip : ∀ t ∈ tasks, t.args.skip_video_cut = false)
    (hinput : ∀ t ∈ tasks, t.inputExists = true)
    (hone : (tasks.filter (fun t => !(cut_video t.cutEnv t.try_copy))).length = 1) :
    (tasks.map process_single_clip).length = tasks.length ∧
    (aggregate (tasks.map process_single_clip)).written.length = tasks.length ∧
    (aggregate (tasks.map process_single_clip)).total_clips = tasks.length ∧
    (aggregate (tasks.map process_single_clip)).video_cut_success = tasks.length - 1 ∧
    (aggregate (tasks.map process_single_clip)).video_cut_failed = 1 ∧
    (∀ (u : ClipTask) (msg : String), u.fault = some msg →
      process_single_clip u = ⟨false, none, false, u.clip.video, some msg⟩) := by
  have hpsc : ∀ t ∈ tasks, process_single_clip t =
      { success := true
        live_cc_data := some (convert_to_live_cc_format t.clip t.args).1
        video_cut_success := cut_video t.cutEnv t.try_copy
        video_id := t.clip.video, error := none } := by
    intro t ht
    rw [process_single_clip, hfault t ht]
    simp only [hskip t ht, hinput t ht, Bool.false_eq_true, if_false, if_true]
  have hall : ∀ r ∈ tasks.map process_single_clip,
      r.success = true ∧ r.live_cc_data.isSome = true := by
    intro r hr
    rcases List.mem_map.mp hr with ⟨t, ht, hrt⟩
    rw [← hrt, hpsc t ht]
    exact ⟨rfl, rfl⟩
  have hfold := aggregate_fold (tasks.map process_single_clip) ⟨[], 0, 0, 0, []⟩ hall
  have hcount : (tasks.map process_single_clip).countP (fun r => r.video_cut_success) =
      tasks.countP (fun t => cut_video t.cutEnv t.try_copy) := by
    rw [List.countP_map]
    refine List.countP_congr ?_
    intro t ht
    simp only [Function.comp_apply, hpsc t ht]
  have hcountn : (tasks.map process_single_clip).countP (fun r => !r.video_cut_success) =
      tasks.countP (fun t => !(cut_video t.cutEnv t.try_copy)) := by
    rw [List.countP_map]
    refine List.countP_congr ?_
    intro t ht
    simp only [Function.comp_apply, hpsc t ht]
  have hone' : tasks.countP (fun t => !(cut_video t.cutEnv t.try_copy)) = 1 := by
    rw [List.countP_eq_length_filter]
    exact hone
  have hsum := countP_not_add (fun t => cut_video t.cutEnv t.try_copy) tasks
  have hsum' : tasks.countP (fun t => cut_video t.cutEnv t.try_copy) +
      tasks.countP (fun t => !(cut_video t.cutEnv t.try_copy)) = tasks.length := hsum
  refine ⟨List.length_map tasks process_single_clip, ?_, ?_, ?_, ?_, ?_⟩
  · rw [aggregate, hfold.1]
    simp [List.length_map]
  · rw [aggregate, hfold.2.1]
    simp [List.length_map]
  · rw [aggregate, hfold.2.2.1, hcount]
    simp only [show (⟨[], 0, 0, 0, []⟩ : AggState).video_cut_success = 0 from rfl, Nat.zero_add]
    omega
  · rw [aggregate, hfold.2.2.2, hcountn, hone']
  · intro u msg hu
    rw [process_single_clip, hu]

/-- A `cut_video` environment that fails immediately (`ffmpeg` unavailable). -/
def exEnvFail : CutEnv := ⟨false, false, .exn, ⟨false, 0⟩, .exn, .exn, ⟨false, 0⟩, .exn⟩

def exOArgs : OrchArgs := ⟨false, "vids", "out", "data"⟩

/-- A worker unit whose extraction succeeds. -/
def taskG : ClipTask := ⟨default, exOArgs, none, true, exEnvGood, true⟩

/-- A worker unit whose extraction fails with a tool failure. -/
def taskB : ClipTask := ⟨default, exOArgs, none, true, exEnvFail, true⟩

/-- Ten clips, the fourth of which fails extraction. -/
def exTasks : List ClipTask :=
  [taskG, taskG, taskG, taskB, taskG, taskG, taskG, taskG, taskG, taskG]

/-- C7 (witness): the spec's 10-clip scenario — 10 records, 9 successes, 1 failure. -/
theorem c7_witness :
    (aggregate (exTasks.map process_single_clip)).written.length = exTasks.length ∧
    (aggregate (exTasks.map process_single_clip)).video_cut_success = exTasks.length - 1 ∧
    (aggregate (exTasks.map process_single_clip)).video_cut_failed = 1 := by
  have h := c7_partial_failure exTasks (by decide) (by decide) (by decide) (by decide)
  exact ⟨h.2.1, h.2.2.2.1, h.2.2.2.2.1⟩

/-- `getD` with the default at an in-range index is plain indexing (generic). -/
theorem getD_eq_getElem_gen {α : Type} [Inhabited α] (l : List α) (n : Nat)
    (h : n < l.length) : l.getD n default = l[n] := by
  rw [List.getD_eq_getElem?_getD, List.getElem?_eq_getElem h]
  rfl

/-- Looking an index up in the completion log returns that index's outcome,
whatever position the schedule completed it at. -/
theorem lookup_completionLog (tasks : List ClipTask) (sched : List Nat) :
    ∀ i ∈ sched, (completionLog tasks sched).lookup i =
      some (process_single_clip (tasks.getD i default)) := by
  induction sched with
  | nil => intro i hi; exact absurd hi (List.not_mem_nil i)
  | cons a tl ih =>
    intro i hi
    by_cases hia : i = a
    · subst hia
      simp [completionLog, List.lookup]
    · have hb : (i == a) = false := beq_eq_false_iff_ne.mpr hia
      rcases List.mem_cons.mp hi with h | h
      · exact absurd h hia
      · simpa [completionLog, List.lookup, hb] using ih i h

/-- Reassembling an arbitrary completion schedule by input index recovers the
in-order map of the worker over the tasks. -/
theorem reassemble_eq (tasks : List ClipTask) (sched : List Nat)
    (hperm : sched.Perm (List.range tasks.length)) :
    reassemble tasks.length (completionLog tasks sched) =
      tasks.map process_single_clip := by
  rw [reassemble]
  have hmem : ∀ i ∈ List.range tasks.length, i ∈ sched := fun i hi => hperm.mem_iff.mpr hi
  have hfm : ∀ l : List Nat, (∀ i ∈ l, i ∈ sched) →
      l.filterMap (fun i => (completionLog tasks sched).lookup i) =
        l.map (fun i => process_single_clip (tasks.getD i default)) := by
    intro l
    induction l with
    | nil => intro _; rfl
    | cons a tl ihl =>
      intro hl
      rw [List.filterMap_cons,
        lookup_completionLog tasks sched a (hl a (List.mem_cons_self a tl))]
      rw [List.map_cons, ihl (fun i hi => hl i (List.mem_cons_of_mem a hi))]
  rw [hfm (List.range tasks.length) hmem]
  apply List.ext_getElem
  · simp
  · intro n h1 h2
    simp only [List.getElem_map, List.getElem_range]
    congr 1
    exact getD_eq_getElem_gen tasks n (by simpa using h2)

/-- C9. Whatever order the pool's workers complete in (any permutation of the
input indices), the orchestrator's result sequence — and hence the sequence of
records written to the output file — is the in-order map over the clips: the
output is deterministic in the clips' original (video, then time) order. -/
theorem c9_deterministic_order (tasks : List ClipTask) (sched : List Nat)
    (hperm : sched.Perm (List.range tasks.length)) :
    reassemble tasks.length (completionLog tasks sched) =
      tasks.map process_single_clip ∧
    (aggregate (reassemble tasks.length (completionLog tasks sched))).written =
      (aggregate (tasks.map process_single_clip)).written := by
  have h := reassemble_eq tasks sched hperm
  exact ⟨h, by rw [h]⟩

/-- Two units of work, completed out of order in the witness schedule. -/
def exPair : List ClipTask := [taskG, taskB]

/-- C9 (witness): completing the second clip first still yields the in-order
output sequence. -/
theorem c9_witness :
    reassemble exPair.length (completionLog exPair [1, 0]) =
      exPair.map process_single_clip :=
  (c9_deterministic_order exPair [1, 0]
    (by rw [show List.range exPair.length = [0, 1] from rfl]
        exact List.Perm.swap 0 1 [])).1

/-! ## WordStream Builder claims -/

/-- Round-half-to-even is monotone. -/
theorem rnearestEven_mono {a b : ℚ} (hab : a ≤ b) : rnearestEven a ≤ rnearestEven b := by
  by_cases hf : ⌊a⌋ < ⌊b⌋
  · have h1 : rnearestEven a ≤ ⌊a⌋ + 1 := by
      simp only [rnearestEven]
      split_ifs <;> omega
    have h2 : ⌊b⌋ ≤ rnearestEven b := by
      simp only [rnearestEven]
      split_ifs <;> omega
    omega
  · have hfe : ⌊b⌋ = ⌊a⌋ :=
      le_antisymm (not_lt.mp hf) (Int.floor_le_floor hab)
    simp only [rnearestEven, hfe]
    split_ifs <;> first | omega | linarith

/-- Rounding to one decimal place is monotone. -/
theorem round1_mono {a b : ℚ} (hab : a ≤ b) : round1 a ≤ round1 b := by
  rw [round1, round1]
  have h := rnearestEven_mono (by linarith : a * 10 ≤ b * 10)
  have h' : ((rnearestEven (a * 10) : ℚ)) ≤ ((rnearestEven (b * 10) : ℚ)) := by
    exact_mod_cast h
  linarith

/-- Number of tokens one subtitle interval contributes: zero if it carries a
bracket, otherwise its space-split, adjacent-deduplicated token count. -/
def tokenCount (x : ℚ × ℚ × String) : Nat :=
  if hasBracket x.2.2 then 0 else (collapseAdj (pySplitSpace x.2.2)).length

theorem intervalWords_length (s e : ℚ) (t : String) :
    (intervalWords s e t).length =
      if hasBracket t then 0 else (collapseAdj (pySplitSpace t)).length := by
  rw [intervalWords]
  by_cases hb : hasBracket t = true
  · rw [if_pos hb, if_pos hb]
    rfl
  · rw [if_neg hb, if_neg hb]
    by_cases hl : 0 < (collapseAdj (pySplitSpace t)).length
    · rw [if_pos hl]
      simp [List.enum_length]
    · rw [if_neg hl]
      simp only [List.length_nil]
      omega

/-- The `k`-th word one interval contributes. -/
theorem intervalWords_getD (s e : ℚ) (t : String) (hb : hasBracket t = false) (k : Nat)
    (hk : k < (collapseAdj (pySplitSpace t)).length) :
    (intervalWords s e t).getD k default =
      ⟨round1 (s + (k : ℚ) *
          ((e - s) / ((collapseAdj (pySplitSpace t)).length : ℚ))),
        round1 (s + ((k : ℚ) + 1) *
          ((e - s) / ((collapseAdj (pySplitSpace t)).length : ℚ))),
        (collapseAdj (pySplitSpace t)).getD k ""⟩ := by
  rw [intervalWords, if_neg (by rw [hb]; exact Bool.false_ne_true)]
  simp only []
  rw [if_pos (by omega)]
  have hlen : k < ((collapseAdj (pySplitSpace t)).enum.map
      (fun p => (⟨round1 (s + (p.1 : ℚ) *
          ((e - s) / ((collapseAdj (pySplitSpace t)).length : ℚ))),
        round1 (s + ((p.1 : ℚ) + 1) *
          ((e - s) / ((collapseAdj (pySplitSpace t)).length : ℚ))), p.2⟩ : Word))).length := by
    simp only [List.length_map, List.enum_length]
    exact hk
  rw [getD_eq_getElem_gen _ _ hlen, List.getElem_map,
    List.getElem_enum _ _ (by simpa [List.enum_length] using hk)]
  simp only []
  rw [List.getD_eq_getElem?_getD, List.getElem?_eq_getElem hk]
  rfl

/-- If an interval contributed any word, its text is bracket-free. -/
theorem intervalWords_pos_bracket (s e : ℚ) (t : String)
    (h : 0 < (intervalWords s e t).length) : hasBracket t = false := by
  cases hb : hasBracket t
  · rfl
  · rw [intervalWords_length, if_pos hb] at h
    omega

/-- C5 (amended).  The WordStream Builder emits exactly one word per
(deduplicated) token of each bracket-free interval; within one interval the
word boundaries are contiguous (each word's end *is* the next word's start)
and, when the interval is non-degenerate (`start ≤ end`), each word's own
interval is non-decreasing, so the words tile without overlap; the union of
the word intervals is `[round1 start, round1 end]` — the source interval's
endpoints *rounded to one decimal*, not the exact endpoints (see the
counterexample). -/
theorem c5_wordstream_reconstruction :
    (∀ subs : List (ℚ × ℚ × String),
      (split2words subs).length = (subs.map tokenCount).sum) ∧
    (∀ (s e : ℚ) (t : String) (k : Nat), k + 1 < (intervalWords s e t).length →
      ((intervalWords s e t).getD k default).we =
        ((intervalWords s e t).getD (k + 1) default).ws) ∧
    (∀ (s e : ℚ) (t : String), s ≤ e → ∀ k, k < (intervalWords s e t).length →
      ((intervalWords s e t).getD k default).ws ≤
        ((intervalWords s e t).getD k default).we) ∧
    (∀ (s e : ℚ) (t : String), intervalWords s e t ≠ [] →
      (intervalWords s e t).headI.ws = round1 s ∧
      ((intervalWords s e t).getLastD default).we = round1 e) := by
  refine ⟨?_, ?_, ?_, ?_⟩
  · intro subs
    have hfun : (List.length ∘ fun x : ℚ × ℚ × String =>
        intervalWords x.1 x.2.1 x.2.2) = tokenCount := by
      funext x
      simp only [Function.comp_apply]
      rw [intervalWords_length, tokenCount]
    rw [split2words, List.length_flatMap, hfun]
  · intro s e t k hk
    have hb : hasBracket t = false := intervalWords_pos_bracket s e t (by omega)
    have hlen : k + 1 < (collapseAdj (pySplitSpace t)).length := by
      rw [intervalWords_length, if_neg (by rw [hb]; exact Bool.false_ne_true)] at hk
      exact hk
    rw [intervalWords_getD s e t hb k (by omega),
      intervalWords_getD s e t hb (k + 1) hlen]
    simp only []
    congr 1
    push_cast
    ring
  · intro s e t hse k hk
    have hb : hasBracket t = false := intervalWords_pos_bracket s e t (by omega)
    have hlen : k < (collapseAdj (pySplitSpace t)).length := by
      rw [intervalWords_length, if_neg (by rw [hb]; exact Bool.false_ne_true)] at hk
      exact hk
    rw [intervalWords_getD s e t hb k hlen]
    simp only []
    apply round1_mono
    have hd : 0 ≤ (e - s) / ((collapseAdj (pySplitSpace t)).length : ℚ) := by
      apply div_nonneg (by linarith)
      positivity
    have hmul : (k : ℚ) * ((e - s) / ((collapseAdj (pySplitSpace t)).length : ℚ)) ≤
        ((k : ℚ) + 1) * ((e - s) / ((collapseAdj (pySplitSpace t)).length : ℚ)) :=
      mul_le_mul_of_nonneg_right (by linarith) hd
    linarith
  · intro s e t hne
    have hpos : 0 < (intervalWords s e t).length := List.length_pos.mpr hne
    have hb : hasBracket t = false := intervalWords_pos_bracket s e t hpos
    have hlen : 0 < (collapseAdj (pySplitSpace t)).length := by
      rw [intervalWords_length, if_neg (by rw [hb]; exact Bool.false_ne_true)] at hpos
      exact hpos
    constructor
    · rw [headI_eq_getD _ hpos, intervalWords_getD s e t hb 0 hlen]
      simp only []
      congr 1
      push_cast
      ring
    · have hL : (intervalWords s e t).getLastD default =
          (intervalWords s e t).getD ((intervalWords s e t).length - 1) default := by
        rw [List.getLastD_eq_getLast?, List.getLast?_eq_getElem?,
          List.getD_eq_getElem?_getD]
      rw [hL, intervalWords_length, if_neg (by rw [hb]; exact Bool.false_ne_true),
        intervalWords_getD s e t hb ((collapseAdj (pySplitSpace t)).length - 1)
          (by omega)]
      simp only []
      congr 1
      have hcast : (((collapseAdj (pySplitSpace t)).length - 1 : ℕ) : ℚ) + 1 =
          ((collapseAdj (pySplitSpace t)).length : ℚ) := by
        rw [Nat.cast_sub (by omega)]
        push_cast
        ring
      rw [hcast]
      have hnz : ((collapseAdj (pySplitSpace t)).length : ℚ) ≠ 0 := by
        positivity
      field_simp

/-- An interval whose bracket-free text splits and dedups to a single token
contributes exactly one word spanning the (rounded) whole interval. -/
theorem intervalWords_single (s e : ℚ) (t w : String)
    (hb : hasBracket t = false)
    (ht : collapseAdj (pySplitSpace t) = [w]) :
    intervalWords s e t = [⟨round1 s, round1 e, w⟩] := by
  rw [intervalWords, if_neg (by rw [hb]; exact Bool.false_ne_true)]
  simp only [ht]
  rw [if_pos (by norm_num)]
  rw [show ([w] : List String).enum = [(0, w)] from rfl]
  simp only [List.map_cons, List.map_nil, List.length_cons, List.length_nil]
  congr 1
  congr 1
  · congr 1
    push_cast
    ring
  · congr 1
    push_cast
    field_simp

theorem round1_of_0 : round1 (0 : ℚ) = 0 := by
  rw [round1]
  rw [show (0 : ℚ) * 10 = 0 by norm_num, rnearestEven]
  norm_num

theorem round1_of_1 : round1 (1 : ℚ) = 1 := by
  rw [round1]
  rw [show (1 : ℚ) * 10 = 10 by norm_num, rnearestEven]
  norm_num

theorem round1_of_13_100 : round1 (13 / 100 : ℚ) = 1 / 10 := by
  rw [round1]
  rw [show (13 / 100 : ℚ) * 10 = 13 / 10 by norm_num, rnearestEven]
  rw [show ⌊(13 / 10 : ℚ)⌋ = 1 by norm_num]
  norm_num

theorem round1_of_3 : round1 (3 : ℚ) = 3 := by
  rw [round1]
  rw [show (3 : ℚ) * 10 = 30 by norm_num, rnearestEven]
  norm_num

/-- C5 (counterexample).  The interval `(0.13, 1, "a")` yields the single word
`[0.1, 1, "a"]`: its start is `round(0.13, 1) = 0.1 ≠ 0.13`, so the union of
the produced word intervals does *not* reconstruct the source interval's
`[start, end]` exactly. -/
theorem c5_counterexample :
    split2words [(13 / 100, 1, "a")] = [⟨1 / 10, 1, "a"⟩] ∧
    ((1 : ℚ) / 10 ≠ 13 / 100) := by
  constructor
  · rw [split2words]
    simp only [List.flatMap_cons, List.flatMap_nil, List.append_nil]
    rw [intervalWords_single (13 / 100) 1 "a" "a" (by decide) (by decide)]
    rw [round1_of_13_100, round1_of_1]
  · norm_num

/-- C5 (witness) on the interval `(0, 3, "x x y")`: two words, contiguous,
non-overlapping, tiling `[round1 0, round1 3]`. -/
theorem c5_witness :
    (split2words [((0 : ℚ), (3 : ℚ), "x x y")]).length =
      ([((0 : ℚ), (3 : ℚ), "x x y")].map tokenCount).sum ∧
    ((intervalWords 0 3 "x x y").getD 0 default).we =
      ((intervalWords 0 3 "x x y").getD 1 default).ws ∧
    ((intervalWords 0 3 "x x y").getD 0 default).ws ≤
      ((intervalWords 0 3 "x x y").getD 0 default).we ∧
    (intervalWords 0 3 "x x y").headI.ws = round1 0 ∧
    ((intervalWords 0 3 "x x y").getLastD default).we = round1 3 := by
  have h := c5_wordstream_reconstruction
  have hlen : (intervalWords (0 : ℚ) (3 : ℚ) "x x y").length = 2 := by
    rw [intervalWords_length]
    rfl
  refine ⟨h.1 _, h.2.1 0 3 "x x y" 0 (by omega), h.2.2.1 0 3 "x x y" (by norm_num) 0 (by omega),
    (h.2.2.2 0 3 "x x y" ?_).1, (h.2.2.2 0 3 "x x y" ?_).2⟩
  · intro hnil
    rw [hnil] at hlen
    simp at hlen
  · intro hnil
    rw [hnil] at hlen
    simp at hlen

/-- Splitting an all-space character list yields one empty piece per gap:
`n` spaces give `n + 1` empty tokens. -/
theorem splitSpaceAux_allspace (cs : List Char) (hsp : ∀ c ∈ cs, c = ' ') :
    splitSpaceAux cs [] = List.replicate (cs.length + 1) [] := by
  induction cs with
  | nil => rfl
  | cons c tl ih =>
    have hc : c = ' ' := hsp c (List.mem_cons_self c tl)
    subst hc
    rw [splitSpaceAux, if_pos rfl,
      ih (fun x hx => hsp x (List.mem_cons_of_mem _ hx))]
    simp [List.replicate_succ]

/-- Adjacent deduplication collapses a run of empty strings to one. -/
theorem collapseAdj_replicate (n : Nat) :
    collapseAdj (List.replicate (n + 1) "") = [""] := by
  induction n with
  | zero => rfl
  | succ k ih =>
    rw [show List.replicate (k + 2) "" = "" :: "" :: List.replicate k "" by
      simp [List.replicate_succ]]
    rw [collapseAdj, if_pos rfl]
    rw [show ("" :: List.replicate k "" : List String) = List.replicate (k + 1) "" by
      simp [List.replicate_succ]]
    exact ih

/-- A string of spaces contains no bracket. -/
theorem allspace_no_bracket (t : String) (hsp : ∀ c ∈ t.toList, c = ' ') :
    hasBracket t = false := by
  rw [hasBracket]
  have key : ∀ ch : Char, ch ≠ ' ' → t.toList.contains ch = false := by
    intro ch hch
    cases hc : t.toList.contains ch
    · rfl
    · obtain ⟨b, hb, hbe⟩ := List.contains_iff_exists_mem_beq.mp hc
      have : ch = b := eq_of_beq hbe
      exact absurd (this ▸ hsp b hb) hch
  rw [key '[' (by decide), key ']' (by decide)]
  rfl

/-- C6 (amended).  An interval whose text is a non-empty all-space string does
not raise (the model is a total function) but contributes exactly *one* word,
not zero: Python's `split(' ')` keeps empty pieces, the dedup loop collapses
them to a single empty token, and that token receives the whole (rounded)
interval. -/
theorem c6_whitespace_interval (s e : ℚ) (t : String)
    (hne : t.toList ≠ [])
    (hsp : ∀ c ∈ t.toList, c = ' ') :
    intervalWords s e t = [⟨round1 s, round1 e, ""⟩] := by
  apply intervalWords_single s e t "" (allspace_no_bracket t hsp)
  rw [pySplitSpace, splitSpaceAux_allspace t.toList hsp]
  rw [List.map_replicate]
  rw [show String.mk [] = "" from rfl]
  have hlen : t.toList.length ≠ 0 := fun h => hne (List.length_eq_zero.mp h)
  rw [show t.toList.length + 1 = (t.toList.length - 1) + 1 + 1 by omega]
  exact collapseAdj_replicate (t.toList.length - 1 + 1)

/-- C6 (counterexample).  `split2words` on the single-space interval
`(0, 1, " ")` contributes one word `[0, 1, ""]` — not zero words as claimed. -/
theorem c6_counterexample :
    split2words [((0 : ℚ), (1 : ℚ), " ")] = [⟨0, 1, ""⟩] ∧
    (split2words [((0 : ℚ), (1 : ℚ), " ")]).length ≠ 0 := by
  have hmain : split2words [((0 : ℚ), (1 : ℚ), " ")] = [⟨0, 1, ""⟩] := by
    rw [split2words]
    simp only [List.flatMap_cons, List.flatMap_nil, List.append_nil]
    rw [intervalWords_single 0 1 " " "" (by decide) (by decide)]
    rw [round1_of_0, round1_of_1]
  refine ⟨hmain, ?_⟩
  rw [hmain]
  decide

/-- C6 (witness for the amended behaviour). -/
theorem c6_witness :
    intervalWords 0 1 " " = [⟨round1 0, round1 1, ""⟩] :=
  c6_whitespace_interval 0 1 " " (by decide) (by decide)

end GSP
